import Mathlib

/-!
Verification development for a schema-agnostic CRUD engine.

The development shallowly embeds two engines of the repository:

- the append-only versioning engine (`src/lib/src/core/crudEngine.ts`,
  class `CrudOperations`, with the resolution helpers of
  `src/utils/recordUtils.ts`): rows are never mutated in place except for
  soft delete; `update` appends a new physical row; resolution selects the
  newest non-deleted row per (workspace, logical id);
- the generic engine (`src/lib/core/crud-engine.ts`, class
  `GenericCrudEngine`, and its twin `CrudHandler` in
  `src/src/core/crud-engine.ts`), whose backend calls are modelled as
  explicit `Except`-valued inputs so that the try/catch behaviour of each
  operation is visible;
- the filter compiler `FilterOp` of `src/src/helpers/filterOperator.ts`
  (suffix-based operator inference and its serialization inverse).

Timestamps are modelled as naturals, generated identifiers (uuid/xid) are
passed as explicit arguments, and the JSON `data` documents are association
lists with JavaScript object semantics (assignment replaces the value of an
existing key in place, otherwise appends).
-/

/-- JSON-like scalar values stored in the open `data` document of a record. -/
inductive Value : Type
  | num (n : Int)
  | str (s : String)
  | boolean (b : Bool)
  | null
deriving DecidableEq, Repr

/-- JavaScript object property write: if the key exists, its value is
replaced in place (for every occurrence), otherwise the pair is appended,
keeping insertion order. -/
def objSet (o : List (String × Value)) (k : String) (v : Value) :
    List (String × Value) :=
  if o.any (fun p => p.1 == k) then
    o.map (fun p => if p.1 == k then (k, v) else p)
  else
    o ++ [(k, v)]

/-- JavaScript object property read: the first entry with the key. -/
def objGet (o : List (String × Value)) (k : String) : Option Value :=
  (o.find? (fun p => p.1 == k)).map Prod.snd

/-- The spread merge of two objects: every entry of `b` is assigned over
`a` in order, exactly as the engine's shallow merge of data documents. -/
def objMerge (a b : List (String × Value)) : List (String × Value) :=
  b.foldl (fun acc p => objSet acc p.1 p.2) a

/-- One physical row of an append-only table, as built by the table builder:
`rowId` is the physical identity (uuid primary key), `id` the logical entity
identity shared across versions, `workspaceId` the tenant scope, and
`deletedAt = none` means the row is active. -/
structure Row where
  rowId : String
  workspaceId : Int
  id : String
  name : String
  data : List (String × Value)
  createdAt : Nat
  updatedAt : Nat
  deletedAt : Option Nat
deriving DecidableEq, Repr

/-- A store is the full list of physical rows of one table, in insertion
order. -/
abbrev Store : Type := List Row

/-- Descending order on `updatedAt`, the order produced by the resolution
query of `recordUtils.ts` (`orderBy(desc(table.updatedAt))`). -/
def updGe (a b : Row) : Prop := b.updatedAt ≤ a.updatedAt

instance : DecidableRel updGe := fun a b => Nat.decLe b.updatedAt a.updatedAt

instance : IsTotal Row updGe :=
  ⟨fun a b => (Nat.le_total b.updatedAt a.updatedAt).elim Or.inl Or.inr⟩

instance : IsTrans Row updGe :=
  ⟨fun _ _ _ h1 h2 => Nat.le_trans h2 h1⟩

/-- The rows the backend returns for the resolution query: workspace-scoped
active rows ordered by `updatedAt` descending. -/
def getLatestRecordsWith (store : Store) (workspaceId : Int) (cond : Row → Bool) :
    List Row :=
  List.insertionSort updGe
    (store.filter (fun r =>
      r.workspaceId == workspaceId && r.deletedAt.isNone && cond r))

/-- The `getLatestRecords` helper of `recordUtils.ts` without extra
conditions. -/
def getLatestRecords (store : Store) (workspaceId : Int) : List Row :=
  getLatestRecordsWith store workspaceId (fun _ => true)

/-- The `getLatestRecordById` helper of `recordUtils.ts`: first row of the
ordered active set further filtered by the logical id. -/
def getLatestRecordById (store : Store) (workspaceId : Int) (id : String) :
    Option Row :=
  (getLatestRecordsWith store workspaceId (fun r => r.id == id)).head?

/-- Data carried by an update call: both fields of the patch are optional. -/
structure UpdateData where
  name : Option String
  data : Option (List (String × Value))
deriving DecidableEq, Repr

/-- Error raised by the versioning engine when an update targets an entity
with no active row. -/
inductive CrudError : Type
  | noActiveRecord
deriving DecidableEq, Repr

instance {e a : Type} [DecidableEq e] [DecidableEq a] : DecidableEq (Except e a) :=
  fun x y =>
    match x, y with
    | Except.ok u, Except.ok v =>
      if h : u = v then isTrue (by rw [h]) else isFalse (fun hc => h (by injection hc))
    | Except.error u, Except.error v =>
      if h : u = v then isTrue (by rw [h]) else isFalse (fun hc => h (by injection hc))
    | Except.ok _, Except.error _ => isFalse (fun hc => Except.noConfusion hc)
    | Except.error _, Except.ok _ => isFalse (fun hc => Except.noConfusion hc)

/-- The `CrudOperations.create` operation: inserts one new row with fresh
physical and logical identities (the uuid draws are passed as arguments),
`createdAt = updatedAt = now` and `deletedAt = null`; a missing `data`
payload defaults to the empty document. -/
def crudCreate (store : Store) (workspaceId : Int) (entityId rowId : String)
    (name : String) (data : Option (List (String × Value))) (now : Nat) :
    Row × Store :=
  let r : Row :=
    { rowId := rowId
      workspaceId := workspaceId
      id := entityId
      name := name
      data := data.getD []
      createdAt := now
      updatedAt := now
      deletedAt := none }
  (r, store ++ [r])

/-- The row appended by an append-only update, exactly as `CrudOperations.update`
builds it: caller name only when truthy, caller data spread over the prior
data only when truthy, original `createdAt` preserved. -/
def updatedRow (latest : Row) (upd : UpdateData) (now : Nat) (newRowId : String) : Row :=
  { rowId := newRowId
    workspaceId := latest.workspaceId
    id := latest.id
    name :=
      match upd.name with
      | some nm => if nm = "" then latest.name else nm
      | none => latest.name
    data :=
      match upd.data with
      | some d => objMerge latest.data d
      | none => latest.data
    createdAt := latest.createdAt
    updatedAt := now
    deletedAt := none }

/-- The `CrudOperations.update` operation: resolve the latest active row of
the entity; on failure throw (modelled as `Except.error`, leaving the store
unchanged); on success append a brand-new row that keeps the logical id and
original `createdAt`, takes the caller name when truthy, merges caller data
over the prior data when truthy, and stamps `updatedAt = now`. -/
def crudUpdate (store : Store) (workspaceId : Int) (id : String)
    (upd : UpdateData) (now : Nat) (newRowId : String) :
    Except CrudError Row × Store :=
  match getLatestRecordById store workspaceId id with
  | none => (Except.error CrudError.noActiveRecord, store)
  | some latest =>
    (Except.ok (updatedRow latest upd now newRowId),
     store ++ [updatedRow latest upd now newRowId])

/-- The `CrudOperations.delete` operation: resolve the latest active row;
if none, report false; otherwise set `deletedAt` and `updatedAt` on the
rows matching that physical id that are still active, and report whether
any row was updated. -/
def crudDelete (store : Store) (workspaceId : Int) (id : String) (now : Nat) :
    Bool × Store :=
  match getLatestRecordById store workspaceId id with
  | none => (false, store)
  | some active =>
    (store.any (fun r => r.rowId == active.rowId && r.deletedAt.isNone),
     store.map (fun r =>
       if r.rowId == active.rowId && r.deletedAt.isNone then
         { r with deletedAt := some now, updatedAt := now }
       else r))

/-- The JavaScript `Map` update used by `getAll`: replace the value stored
under the record's id, keeping its position. -/
def mapSetById (acc : List Row) (rec : Row) : List Row :=
  acc.map (fun e => if e.id == rec.id then rec else e)

/-- The grouping loop of `CrudOperations.getAll`: walk the resolved rows,
keeping per logical id the first row seen unless a later row has a strictly
greater `createdAt`. -/
def collectLatest : List Row → List Row → List Row
  | acc, [] => acc
  | acc, rec :: rest =>
    match acc.find? (fun e => e.id == rec.id) with
    | none => collectLatest (acc ++ [rec]) rest
    | some existing =>
      if existing.createdAt < rec.createdAt then
        collectLatest (mapSetById acc rec) rest
      else
        collectLatest acc rest

/-- The `CrudOperations.getAll` operation: all latest active records of a
workspace, one per logical id. -/
def crudGetAll (store : Store) (workspaceId : Int) : List Row :=
  collectLatest [] (getLatestRecords store workspaceId)

/-- The `CrudOperations.get` operation: latest active version of one
entity. -/
def crudGet (store : Store) (workspaceId : Int) (id : String) : Option Row :=
  getLatestRecordById store workspaceId id

/-- Stores reachable from the empty table through engine operations. The
freshness side conditions model the uniqueness of drawn uuids. -/
inductive Reachable : Store → Prop
  | empty : Reachable []
  | create (s : Store) (ws : Int) (eid rid nm : String)
      (d : Option (List (String × Value))) (now : Nat) :
      Reachable s →
      (∀ r ∈ s, r.id ≠ eid) →
      (∀ r ∈ s, r.rowId ≠ rid) →
      Reachable (crudCreate s ws eid rid nm d now).2
  | update (s : Store) (ws : Int) (eid : String) (upd : UpdateData)
      (now : Nat) (rid : String) :
      Reachable s →
      (∀ r ∈ s, r.rowId ≠ rid) →
      Reachable (crudUpdate s ws eid upd now rid).2
  | delete (s : Store) (ws : Int) (eid : String) (now : Nat) :
      Reachable s →
      Reachable (crudDelete s ws eid now).2

/-- Engine invariant: all physical rows of one logical entity within one
workspace share the original `createdAt`. -/
def CreatedAtConstant (store : Store) : Prop :=
  ∀ a ∈ store, ∀ b ∈ store,
    a.workspaceId = b.workspaceId → a.id = b.id → a.createdAt = b.createdAt

/-- Engine invariant: physical row identities are unique. -/
def RowIdsUnique (store : Store) : Prop := (store.map Row.rowId).Nodup

/-- Specification of an append-only update that resolves an active prior
version: exactly one new physical row is appended, reusing the logical id
and the original creation time, with the name taken from the caller when
supplied and the data being the shallow merge of the prior data with the
caller data. -/
def UpdateAppendSpec (store : Store) (ws : Int) (eid : String) (upd : UpdateData)
    (now : Nat) (rid : String) (prior : Row) : Prop :=
  ∃ r : Row,
    crudUpdate store ws eid upd now rid = (Except.ok r, store ++ [r]) ∧
    r.rowId = rid ∧
    r.workspaceId = prior.workspaceId ∧
    r.id = prior.id ∧
    r.createdAt = prior.createdAt ∧
    r.updatedAt = now ∧
    r.deletedAt = none ∧
    r.name = (match upd.name with | some nm => nm | none => prior.name) ∧
    (∀ k, objGet r.data k =
      (match upd.data with
       | some d =>
         (match objGet d k with
          | some v => some v
          | none => objGet prior.data k)
       | none => objGet prior.data k))

/-- Specification of `getAll` for one workspace: only active rows of that
workspace are returned, at most one row per logical id, every active
logical id of the workspace is represented, and each returned row has the
greatest `updatedAt` among the active rows of its logical id. -/
def GetAllSpec (store : Store) (ws : Int) : Prop :=
  (∀ r ∈ crudGetAll store ws, r ∈ store ∧ r.workspaceId = ws ∧ r.deletedAt = none) ∧
  (crudGetAll store ws).Pairwise (fun a b => a.id ≠ b.id) ∧
  (∀ x ∈ store, x.workspaceId = ws → x.deletedAt = none →
     ∃ r ∈ crudGetAll store ws, r.id = x.id) ∧
  (∀ r ∈ crudGetAll store ws, ∀ x ∈ store, x.workspaceId = ws →
     x.deletedAt = none → x.id = r.id → x.updatedAt ≤ r.updatedAt)

/-- Specification of soft delete: when an active current version resolves,
delete reports true, keeps the physical row set (no new row, identical
row ids in order), marks the resolved row deleted, and leaves every row
with a different physical id untouched; when nothing resolves it reports
false and leaves the store unchanged. -/
def DeleteSpec (store : Store) (ws : Int) (eid : String) (now : Nat) : Prop :=
  match getLatestRecordById store ws eid with
  | none => crudDelete store ws eid now = (false, store)
  | some cur =>
      (crudDelete store ws eid now).1 = true ∧
      (crudDelete store ws eid now).2.map Row.rowId = store.map Row.rowId ∧
      { cur with deletedAt := some now, updatedAt := now } ∈ (crudDelete store ws eid now).2 ∧
      (∀ r ∈ store, r.rowId ≠ cur.rowId → r ∈ (crudDelete store ws eid now).2)

/-- Specification of workspace partitioning for one query workspace `ws`:
point reads and list reads only ever surface rows of `ws`, update leaves
every pre-existing row in place and only ever appends a row of `ws`, and
delete never touches a row of another workspace. -/
def WorkspaceIsolation (store : Store) (ws : Int) (eid : String)
    (upd : UpdateData) (now : Nat) (rid : String) : Prop :=
  (∀ r : Row, crudGet store ws eid = some r → r.workspaceId = ws) ∧
  (∀ r ∈ crudGetAll store ws, r.workspaceId = ws) ∧
  (∀ r ∈ store, r ∈ (crudUpdate store ws eid upd now rid).2) ∧
  (∀ n : Row, (crudUpdate store ws eid upd now rid).1 = Except.ok n →
     n.workspaceId = ws) ∧
  (∀ r ∈ store, r.workspaceId ≠ ws → r ∈ (crudDelete store ws eid now).2)

/-- Specification of an update whose caller name is the falsy empty string
and whose caller data is absent: the appended row retains the prior name
and the prior data document unchanged. -/
def FalsyUpdateSpec (store : Store) (ws : Int) (eid : String) (now : Nat)
    (rid : String) (prior : Row) : Prop :=
  ∃ r : Row,
    crudUpdate store ws eid { name := some "", data := none } now rid
      = (Except.ok r, store ++ [r]) ∧
    r.name = prior.name ∧ r.data = prior.data

/-- A concrete scenario store: one entity created in workspace 1. -/
def demoRow1 : Row :=
  { rowId := "r1", workspaceId := 1, id := "e1", name := "A",
    data := [("x", Value.num 1)], createdAt := 0, updatedAt := 0, deletedAt := none }

def demoStore1 : Store :=
  (crudCreate [] 1 "e1" "r1" "A" (some [("x", Value.num 1)]) 0).2

/-- The patch of the scenario update: data only. -/
def demoUpd : UpdateData := { name := none, data := some [("y", Value.num 2)] }

/-- The empty patch. -/
def demoUpdEmpty : UpdateData := { name := none, data := none }

/-- The scenario store after an append-only update at time 1. -/
def demoStore2 : Store := (crudUpdate demoStore1 1 "e1" demoUpd 1 "r2").2

/-- The filter operators of the suffix-based compiler. -/
inductive FOp : Type
  | eqOp | neOp | ltOp | gtOp | lteOp | gteOp | inOp | pfxOp | sfxOp | substrOp
deriving DecidableEq, Repr

/-- One compiled predicate of the filter compiler. -/
structure FilterPred where
  field : String
  operator : FOp
  value : Value
deriving DecidableEq, Repr

/-- The reserved control keys skipped by the compiler. -/
def reservedQueryParams : List String := ["page", "limit", "sort", "select", "deleted"]

/-- JavaScript `key.endsWith(sfx)` on the character lists of the strings. -/
def strEndsWith (k s : String) : Bool :=
  k.data.drop (k.data.length - s.data.length) == s.data

/-- JavaScript `key.slice(0, -n)`: the string without its last `n`
characters. -/
def strDropRight (k : String) (n : Nat) : String :=
  ⟨k.data.take (k.data.length - n)⟩

/-- The ordered operator suffix table of `parseFieldAndOperator`, with the
stored suffix lengths of the source. -/
def operatorMappings : List (String × FOp × Nat) :=
  [("_prefix", FOp.pfxOp, 7), ("_suffix", FOp.sfxOp, 7), ("_substr", FOp.substrOp, 7),
   ("_lte", FOp.lteOp, 4), ("_gte", FOp.gteOp, 4), ("_ne", FOp.neOp, 3),
   ("_lt", FOp.ltOp, 3), ("_gt", FOp.gtOp, 3), ("_in", FOp.inOp, 3)]

/-- The first-match scan of the suffix table. -/
def matchSuffix : List (String × FOp × Nat) → String → Option (String × FOp)
  | [], _ => none
  | (sfx, op, len) :: rest, key =>
    if strEndsWith key sfx then some (strDropRight key len, op)
    else matchSuffix rest key

/-- `FilterOp.parseFieldAndOperator`: operator inference by suffix, with
equality as the fallback. -/
def parseFieldAndOperator (key : String) : String × FOp :=
  match matchSuffix operatorMappings key with
  | some fo => fo
  | none => (key, FOp.eqOp)

/-- `FilterOp.fromQueryParams`: skip reserved keys, parse the remaining
keys in order. -/
def fromQueryParams (params : List (String × Value)) : List FilterPred :=
  (params.filter (fun p => !(reservedQueryParams.contains p.1))).map
    (fun p => { field := (parseFieldAndOperator p.1).1,
                operator := (parseFieldAndOperator p.1).2,
                value := p.2 })

/-- The operator names used by the serializer. -/
def opName : FOp → String
  | FOp.eqOp => "eq"
  | FOp.neOp => "ne"
  | FOp.ltOp => "lt"
  | FOp.gtOp => "gt"
  | FOp.lteOp => "lte"
  | FOp.gteOp => "gte"
  | FOp.inOp => "in"
  | FOp.pfxOp => "prefix"
  | FOp.sfxOp => "suffix"
  | FOp.substrOp => "substr"

/-- The serialized key of one predicate: the bare field for equality,
otherwise the field with the operator suffix. -/
def serializeKey (f : FilterPred) : String :=
  if f.operator = FOp.eqOp then f.field else f.field ++ "_" ++ opName f.operator

/-- `FilterOp.toQueryParams`: write each predicate into a fresh parameter
object under its serialized key. -/
def toQueryParams (filters : List FilterPred) : List (String × Value) :=
  filters.foldl (fun acc f => objSet acc (serializeKey f) f.value) []

/-- Whether a field name itself ends in one of nine operator suffixes, in
which case its equality serialization is re-parsed as that operator. -/
def fieldEndsInOpSuffix (f : String) : Bool :=
  operatorMappings.any (fun t => strEndsWith f t.1)

/-- The example predicate list of the specification scenario. -/
def demoFilters : List FilterPred :=
  [⟨"age", FOp.gtOp, Value.num 30⟩,
   ⟨"name", FOp.substrOp, Value.str "ann"⟩,
   ⟨"status", FOp.eqOp, Value.str "active"⟩]

/-- One row of the generic engine's standard table (`StandardEntity` plus
the timestamp columns). Fields an insert payload may omit are optional:
the generic engine's update does not copy the parent's `name`, `wid` or
`data` forward, so its inserted row carries only what the caller patch
supplied. -/
structure GRow where
  id : String
  wid : Option Int := none
  name : Option String := none
  data : Option (List (String × Value)) := none
  created_at : Option Nat := none
  updated_at : Option Nat := none
  deleted_at : Option Nat := none
deriving DecidableEq, Repr

/-- The partial patch accepted by the generic engine's update. -/
structure GPatch where
  name : Option String
  data : Option (List (String × Value))
deriving DecidableEq, Repr

/-- `GenericCrudEngine.create`: spread the payload, add a fresh id and
`created_at`; a backend failure (the `err` input) is rethrown. -/
def geCreate (store : List GRow) (nm : String) (dat : List (String × Value))
    (now : Nat) (rid : String) (err : Option Unit) :
    Except Unit (GRow × List GRow) :=
  match err with
  | some _ => Except.error ()
  | none =>
    Except.ok ({ id := rid, name := some nm, data := some dat, created_at := some now },
      store ++ [{ id := rid, name := some nm, data := some dat, created_at := some now }])

/-- `GenericCrudEngine.update`: resolve the first active row with the id
(limit 1); if none, return null; otherwise insert a new row carrying the
patch fields, a fresh id, the parent's `created_at` and `updated_at = now`.
A backend failure is rethrown. -/
def geUpdate (store : List GRow) (id : String) (patch : GPatch) (now : Nat)
    (rid : String) (err : Option Unit) :
    Except Unit (Option GRow × List GRow) :=
  match err with
  | some _ => Except.error ()
  | none =>
    match (store.filter (fun r => r.id == id && r.deleted_at.isNone)).head? with
    | none => Except.ok (none, store)
    | some parent =>
      Except.ok
        (some ({ id := rid, name := patch.name, data := patch.data,
                 created_at := parent.created_at, updated_at := some now } : GRow),
         store ++ [({ id := rid, name := patch.name, data := patch.data,
                      created_at := parent.created_at, updated_at := some now } : GRow)])

/-- `GenericCrudEngine.delete`: soft delete every active row with the id;
report whether any row was updated; any backend error is caught and
reported as false. -/
def geDelete (store : List GRow) (id : String) (now : Nat) (err : Option Unit) :
    Bool × List GRow :=
  match err with
  | some _ => (false, store)
  | none =>
    (store.any (fun r => r.id == id && r.deleted_at.isNone),
     store.map (fun r =>
       if r.id == id && r.deleted_at.isNone then { r with deleted_at := some now }
       else r))

/-- `GenericCrudEngine.bulkCreate`: one fresh id per item, one shared
insert; a backend failure fails the whole batch. -/
def geBulkCreate (store : List GRow)
    (items : List (String × List (String × Value))) (now : Nat)
    (gen : Nat → String) (err : Option Unit) :
    Except Unit (List GRow × List GRow) :=
  match err with
  | some _ => Except.error ()
  | none =>
    Except.ok (items.enum.map (fun p =>
        { id := gen p.1, name := some p.2.1, data := some p.2.2, created_at := some now }),
      store ++ items.enum.map (fun p =>
        { id := gen p.1, name := some p.2.1, data := some p.2.2, created_at := some now }))

/-- JavaScript `x || d` on an optional numeric parameter: absent and zero
are falsy and fall back to the default. -/
def jsOrNum (x : Option Int) (d : Int) : Int :=
  match x with
  | none => d
  | some n => if n = 0 then d else n

/-- The effective page of `findMany`: `Math.max(1, params.page || 1)`. -/
def effectivePage (p : Option Int) : Int := max 1 (jsOrNum p 1)

/-- The effective limit of `findMany`:
`Math.min(100, Math.max(1, params.limit || 10))`. -/
def effectiveLimit (l : Option Int) : Int := min 100 (max 1 (jsOrNum l 10))

/-- The offset of `findMany`: `(page - 1) * limit` over the effective
values. -/
def effectiveOffset (p l : Option Int) : Int :=
  (effectivePage p - 1) * effectiveLimit l

/-- The result shape of the generic engine's list operation. -/
structure GQueryResult where
  records : List GRow
  record_count : Nat
deriving DecidableEq, Repr

/-- `GenericCrudEngine.findMany`: runs the backend query with the effective
limit and offset; any backend failure is caught and reported as an empty
result with a zero count. -/
def geFindMany (page limit : Option Int)
    (backend : Int → Int → Except Unit (List GRow × Nat)) : GQueryResult :=
  match backend (effectiveLimit limit) (effectiveOffset page limit) with
  | Except.ok (rows, total) => { records := rows, record_count := total }
  | Except.error _ => { records := [], record_count := 0 }

/-- `GenericCrudEngine.count` and `CrudHandler.count`: the backend count is
returned on success; a backend failure is logged and rethrown, not masked. -/
def geCount (backend : Except Unit Nat) : Except Unit Nat :=
  match backend with
  | Except.ok n => Except.ok n
  | Except.error e => Except.error e

theorem objGet_map_set_self (o : List (String × Value)) (k : String) (v : Value)
    (h : o.any (fun p => p.1 == k) = true) :
    objGet (o.map (fun p => if p.1 == k then (k, v) else p)) k = some v := by
  induction o with
  | nil => simp at h
  | cons p rest ih =>
    by_cases hp : (p.1 == k) = true
    · simp [objGet, List.find?, hp]
    · simp only [List.any_cons, hp, Bool.false_or] at h
      simp only [List.map_cons, hp, if_false]
      simpa [objGet, List.find?, hp] using ih h

theorem objGet_map_set_ne (o : List (String × Value)) (k k' : String) (v : Value)
    (h : (k' == k) = false) :
    objGet (o.map (fun p => if p.1 == k then (k, v) else p)) k' = objGet o k' := by
  induction o with
  | nil => simp [objGet]
  | cons p rest ih =>
    by_cases hp : (p.1 == k) = true
    · have hpk : p.1 = k := by simpa using hp
      have hkk' : ((k : String) == k') = false := by
        simp only [beq_eq_false_iff_ne, ne_eq] at h ⊢
        exact fun hc => h hc.symm
      have hpk' : (p.1 == k') = false := by rw [hpk]; exact hkk'
      simp only [List.map_cons, hp, if_true]
      simp [objGet, List.find?, hkk', hpk'] at ih ⊢
      exact ih
    · simp only [List.map_cons, hp, if_false]
      by_cases hq : (p.1 == k') = true
      · simp [objGet, List.find?, hq]
      · simp only [Bool.not_eq_true] at hq
        simp [objGet, List.find?, hq] at ih ⊢
        exact ih

theorem objGet_objSet_self (o : List (String × Value)) (k : String) (v : Value) :
    objGet (objSet o k v) k = some v := by
  unfold objSet
  by_cases h : o.any (fun p => p.1 == k) = true
  · simpa [h] using objGet_map_set_self o k v h
  · simp only [Bool.not_eq_true] at h
    have hnone : o.find? (fun p => p.1 == k) = none := by
      rw [List.find?_eq_none]
      intro p hp hc
      exact (List.any_eq_false.mp h p hp) hc
    simp [h, objGet, List.find?_append, hnone, List.find?]

theorem objGet_objSet_ne (o : List (String × Value)) (k k' : String) (v : Value)
    (h : k' ≠ k) : objGet (objSet o k v) k' = objGet o k' := by
  have hb : (k' == k) = false := beq_eq_false_iff_ne.mpr h
  unfold objSet
  by_cases ha : o.any (fun p => p.1 == k) = true
  · simpa [ha] using objGet_map_set_ne o k k' v hb
  · simp only [Bool.not_eq_true] at ha
    simp only [ha, Bool.false_eq_true, if_false]
    unfold objGet
    rw [List.find?_append]
    cases hfind : o.find? (fun p => p.1 == k') with
    | some p => simp
    | none =>
      have hkk : ((k : String) == k') = false := by
        simp only [beq_eq_false_iff_ne, ne_eq] at hb ⊢
        exact fun hc => hb hc.symm
      simp [List.find?, hkk]

theorem objGet_eq_none_of_not_mem (o : List (String × Value)) (k : String)
    (h : k ∉ o.map Prod.fst) : objGet o k = none := by
  unfold objGet
  rw [List.find?_eq_none.mpr]
  · rfl
  · intro p hp hc
    exact h (List.mem_map.mpr ⟨p, hp, by simpa using hc⟩)

/-- Shallow-merge semantics at the level of key lookup: keys of the caller
document override, all other keys are retained from the prior document.
The caller document is a JavaScript object, so its keys are distinct. -/
theorem objGet_objMerge (a b : List (String × Value))
    (hb : (b.map Prod.fst).Nodup) (k : String) :
    objGet (objMerge a b) k =
      match objGet b k with
      | some v => some v
      | none => objGet a k := by
  induction b generalizing a with
  | nil => simp [objMerge, objGet, List.find?]
  | cons p rest ih =>
    simp only [List.map_cons, List.nodup_cons] at hb
    have step : objMerge a (p :: rest) = objMerge (objSet a p.1 p.2) rest := by
      simp [objMerge]
    rw [step, ih (objSet a p.1 p.2) hb.2]
    by_cases hk : (p.1 == k) = true
    · have hpk : p.1 = k := by simpa using hk
      have hrest : objGet rest k = none := by
        apply objGet_eq_none_of_not_mem
        rw [← hpk]
        exact hb.1
      have hhead : objGet (p :: rest) k = some p.2 := by
        simp [objGet, List.find?, hk]
      simp only [hrest, hhead]
      rw [← hpk]
      exact objGet_objSet_self a p.1 p.2
    · have hk' : k ≠ p.1 := by
        intro hc
        rw [hc] at hk
        simp at hk
      have hhead : objGet (p :: rest) k = objGet rest k := by
        simp [objGet, List.find?, hk]
      rw [hhead, objGet_objSet_ne a p.1 k p.2 hk']

theorem mem_getLatestRecordsWith {store : Store} {ws : Int} {cond : Row → Bool}
    {r : Row} :
    r ∈ getLatestRecordsWith store ws cond ↔
      r ∈ store ∧ r.workspaceId = ws ∧ r.deletedAt = none ∧ cond r = true := by
  unfold getLatestRecordsWith
  rw [(List.perm_insertionSort updGe _).mem_iff, List.mem_filter]
  constructor
  · rintro ⟨hmem, hcond⟩
    simp only [Bool.and_eq_true, beq_iff_eq, Option.isNone_iff_eq_none] at hcond
    exact ⟨hmem, hcond.1.1, hcond.1.2, hcond.2⟩
  · rintro ⟨hmem, hws, hdel, hc⟩
    refine ⟨hmem, ?_⟩
    simp [hws, hdel, hc]

theorem sorted_getLatestRecordsWith (store : Store) (ws : Int) (cond : Row → Bool) :
    (getLatestRecordsWith store ws cond).Pairwise updGe :=
  List.sorted_insertionSort updGe _

theorem getLatestRecordById_props {store : Store} {ws : Int} {eid : String}
    {r : Row} (h : getLatestRecordById store ws eid = some r) :
    r ∈ store ∧ r.workspaceId = ws ∧ r.deletedAt = none ∧ r.id = eid := by
  unfold getLatestRecordById at h
  have hmem : r ∈ getLatestRecordsWith store ws (fun q => q.id == eid) :=
    List.mem_of_mem_head? h
  rw [mem_getLatestRecordsWith] at hmem
  exact ⟨hmem.1, hmem.2.1, hmem.2.2.1, by simpa using hmem.2.2.2⟩

/-- The resolved row has the greatest `updatedAt` among the entity's active
rows in the workspace. -/
theorem getLatestRecordById_maximal {store : Store} {ws : Int} {eid : String}
    {r : Row} (h : getLatestRecordById store ws eid = some r) :
    ∀ x ∈ store, x.workspaceId = ws → x.deletedAt = none → x.id = eid →
      x.updatedAt ≤ r.updatedAt := by
  intro x hx hws hdel hid
  unfold getLatestRecordById at h
  have hxmem : x ∈ getLatestRecordsWith store ws (fun q => q.id == eid) :=
    mem_getLatestRecordsWith.mpr ⟨hx, hws, hdel, by simp [hid]⟩
  have hsorted := sorted_getLatestRecordsWith store ws (fun q => q.id == eid)
  cases hl : getLatestRecordsWith store ws (fun q => q.id == eid) with
  | nil => rw [hl] at hxmem; exact absurd hxmem (List.not_mem_nil x)
  | cons a rest =>
    rw [hl] at h hxmem hsorted
    simp only [List.head?_cons, Option.some.injEq] at h
    subst h
    rcases List.mem_cons.mp hxmem with hxa | hxrest
    · subst hxa; exact Nat.le_refl _
    · exact (List.pairwise_cons.mp hsorted).1 x hxrest

/-- Resolution never fails when the entity has at least one active row in
the workspace. -/
theorem getLatestRecordById_isSome {store : Store} {ws : Int} {eid : String}
    {x : Row} (hx : x ∈ store) (hws : x.workspaceId = ws)
    (hdel : x.deletedAt = none) (hid : x.id = eid) :
    ∃ r, getLatestRecordById store ws eid = some r := by
  have hxmem : x ∈ getLatestRecordsWith store ws (fun q => q.id == eid) :=
    mem_getLatestRecordsWith.mpr ⟨hx, hws, hdel, by simp [hid]⟩
  cases hl : getLatestRecordsWith store ws (fun q => q.id == eid) with
  | nil => rw [hl] at hxmem; exact absurd hxmem (List.not_mem_nil x)
  | cons a rest => exact ⟨a, by unfold getLatestRecordById; rw [hl]; rfl⟩

theorem reachable_createdAtConstant {store : Store} (h : Reachable store) :
    CreatedAtConstant store := by
  induction h with
  | empty => intro a ha; exact absurd ha (List.not_mem_nil a)
  | create s ws eid rid nm d now _ hid _ ih =>
    intro a ha b hb hws hid'
    simp only [crudCreate, List.mem_append, List.mem_singleton] at ha hb
    rcases ha with ha | ha <;> rcases hb with hb | hb
    · exact ih a ha b hb hws hid'
    · exact absurd (hb ▸ hid') (by simpa using (hid a ha))
    · exact absurd (ha ▸ hid'.symm) (by simpa using (hid b hb))
    · rw [ha, hb]
  | update s ws eid upd now rid _ _ ih =>
    intro a ha b hb hws hid'
    unfold crudUpdate at ha hb
    cases hres : getLatestRecordById s ws eid with
    | none =>
      rw [hres] at ha hb
      exact ih a ha b hb hws hid'
    | some latest =>
      rw [hres] at ha hb
      obtain ⟨hlmem, hlws, _, _⟩ := getLatestRecordById_props hres
      simp only [List.mem_append, List.mem_singleton] at ha hb
      rcases ha with ha | ha <;> rcases hb with hb | hb
      · exact ih a ha b hb hws hid'
      · subst hb
        exact ih a ha latest hlmem (by simpa using hws) (by simpa using hid')
      · subst ha
        exact (ih b hb latest hlmem (by simpa using hws.symm)
          (by simpa using hid'.symm)).symm
      · rw [ha, hb]
  | delete s ws eid now _ ih =>
    intro a ha b hb hws hid'
    unfold crudDelete at ha hb
    cases hres : getLatestRecordById s ws eid with
    | none =>
      rw [hres] at ha hb
      exact ih a ha b hb hws hid'
    | some active =>
      rw [hres] at ha hb
      simp only [List.mem_map] at ha hb
      obtain ⟨a0, ha0, haeq⟩ := ha
      obtain ⟨b0, hb0, hbeq⟩ := hb
      have hafields : a.workspaceId = a0.workspaceId ∧ a.id = a0.id ∧
          a.createdAt = a0.createdAt := by
        by_cases hcond : (a0.rowId == active.rowId && a0.deletedAt.isNone) = true
        · rw [← haeq]; simp [hcond]
        · rw [← haeq]; simp [hcond]
      have hbfields : b.workspaceId = b0.workspaceId ∧ b.id = b0.id ∧
          b.createdAt = b0.createdAt := by
        by_cases hcond : (b0.rowId == active.rowId && b0.deletedAt.isNone) = true
        · rw [← hbeq]; simp [hcond]
        · rw [← hbeq]; simp [hcond]
      rw [hafields.2.2, hbfields.2.2]
      exact ih a0 ha0 b0 hb0
        (by rw [← hafields.1, ← hbfields.1]; exact hws)
        (by rw [← hafields.2.1, ← hbfields.2.1]; exact hid')

theorem reachable_rowIdsUnique {store : Store} (h : Reachable store) :
    RowIdsUnique store := by
  induction h with
  | empty => simp [RowIdsUnique]
  | create s ws eid rid nm d now _ _ hrid ih =>
    unfold RowIdsUnique at ih ⊢
    unfold crudCreate
    simp only [List.map_append, List.map_cons, List.map_nil]
    rw [List.nodup_append]
    refine ⟨ih, List.nodup_singleton _, ?_⟩
    intro x hx
    simp only [List.mem_map] at hx
    obtain ⟨r, hr, hrx⟩ := hx
    simp only [List.mem_singleton]
    rw [← hrx]
    exact hrid r hr
  | update s ws eid upd now rid _ hrid ih =>
    unfold RowIdsUnique at ih ⊢
    unfold crudUpdate
    cases hres : getLatestRecordById s ws eid with
    | none => exact ih
    | some latest =>
      simp only [List.map_append, List.map_cons, List.map_nil]
      rw [List.nodup_append]
      refine ⟨ih, List.nodup_singleton _, ?_⟩
      intro x hx
      simp only [List.mem_map] at hx
      obtain ⟨r, hr, hrx⟩ := hx
      simp only [List.mem_singleton]
      rw [← hrx]
      exact hrid r hr
  | delete s ws eid now _ ih =>
    unfold RowIdsUnique at ih ⊢
    unfold crudDelete
    cases hres : getLatestRecordById s ws eid with
    | none => exact ih
    | some active =>
      have hmap : (s.map (fun r =>
          if r.rowId == active.rowId && r.deletedAt.isNone then
            { r with deletedAt := some now, updatedAt := now }
          else r)).map Row.rowId = s.map Row.rowId := by
        rw [List.map_map]
        apply List.map_congr_left
        intro r _
        simp only [Function.comp]
        split
        · rfl
        · rfl
      rw [hmap]
      exact ih

theorem mem_mapSetById {acc : List Row} {rcd r : Row} (h : r ∈ mapSetById acc rcd) :
    r = rcd ∨ r ∈ acc := by
  unfold mapSetById at h
  obtain ⟨e, he, heq⟩ := List.mem_map.mp h
  by_cases hc : (e.id == rcd.id) = true
  · rw [if_pos hc] at heq
    exact Or.inl heq.symm
  · rw [if_neg hc] at heq
    exact Or.inr (heq ▸ he)

theorem collectLatest_cons_none {acc : List Row} {rcd : Row} {rest : List Row}
    (hfind : acc.find? (fun e => e.id == rcd.id) = none) :
    collectLatest acc (rcd :: rest) = collectLatest (acc ++ [rcd]) rest := by
  have heq : collectLatest acc (rcd :: rest) =
      match acc.find? (fun e => e.id == rcd.id) with
      | none => collectLatest (acc ++ [rcd]) rest
      | some existing =>
        if existing.createdAt < rcd.createdAt then
          collectLatest (mapSetById acc rcd) rest
        else collectLatest acc rest := rfl
  rw [heq, hfind]

theorem collectLatest_cons_some {acc : List Row} {rcd existing : Row}
    {rest : List Row}
    (hfind : acc.find? (fun e => e.id == rcd.id) = some existing) :
    collectLatest acc (rcd :: rest) =
      if existing.createdAt < rcd.createdAt then
        collectLatest (mapSetById acc rcd) rest
      else collectLatest acc rest := by
  have heq : collectLatest acc (rcd :: rest) =
      match acc.find? (fun e => e.id == rcd.id) with
      | none => collectLatest (acc ++ [rcd]) rest
      | some existing =>
        if existing.createdAt < rcd.createdAt then
          collectLatest (mapSetById acc rcd) rest
        else collectLatest acc rest := rfl
  rw [heq, hfind]

theorem collectLatest_mem :
    ∀ (l acc : List Row) (r : Row), r ∈ collectLatest acc l → r ∈ acc ∨ r ∈ l := by
  intro l
  induction l with
  | nil => intro acc r h; exact Or.inl h
  | cons rcd rest ih =>
    intro acc r h
    cases hfind : acc.find? (fun e => e.id == rcd.id) with
    | none =>
      rw [collectLatest_cons_none hfind] at h
      rcases ih (acc ++ [rcd]) r h with hl | hr
      · rcases List.mem_append.mp hl with hl' | hl'
        · exact Or.inl hl'
        · exact Or.inr (by rw [List.mem_singleton.mp hl']; exact List.mem_cons_self rcd rest)
      · exact Or.inr (List.mem_cons_of_mem _ hr)
    | some existing =>
      rw [collectLatest_cons_some hfind] at h
      by_cases hlt : existing.createdAt < rcd.createdAt
      · rw [if_pos hlt] at h
        rcases ih (mapSetById acc rcd) r h with hl | hr
        · rcases mem_mapSetById hl with h1 | h1
          · exact Or.inr (by rw [h1]; exact List.mem_cons_self rcd rest)
          · exact Or.inl h1
        · exact Or.inr (List.mem_cons_of_mem _ hr)
      · rw [if_neg hlt] at h
        rcases ih acc r h with hl | hr
        · exact Or.inl hl
        · exact Or.inr (List.mem_cons_of_mem _ hr)

/-- Behaviour of the `getAll` grouping loop on an input ordered by
descending `updatedAt` whose rows satisfy the per-entity `createdAt`
constancy invariant: the accumulated map ends with exactly one entry per
logical id, each entry being a row of maximal `updatedAt` for its id. -/
theorem collectLatest_spec (l : List Row) :
    ∀ (acc : List Row),
    (∀ a ∈ acc, ∀ x ∈ l, x.updatedAt ≤ a.updatedAt) →
    (∀ a b, (a ∈ acc ∨ a ∈ l) → (b ∈ acc ∨ b ∈ l) → a.id = b.id →
      a.createdAt = b.createdAt) →
    l.Pairwise updGe →
    acc.Pairwise (fun a b => a.id ≠ b.id) →
    ((∀ r ∈ collectLatest acc l, r ∈ acc ∨ r ∈ l) ∧
     (collectLatest acc l).Pairwise (fun a b => a.id ≠ b.id) ∧
     (∀ a ∈ acc, a ∈ collectLatest acc l) ∧
     (∀ x ∈ l, ∃ r ∈ collectLatest acc l, r.id = x.id) ∧
     (∀ r ∈ collectLatest acc l, ∀ x ∈ l, x.id = r.id →
        x.updatedAt ≤ r.updatedAt)) := by
  induction l with
  | nil =>
    intro acc _ _ _ haccdist
    refine ⟨fun r hr => Or.inl hr, haccdist, fun a ha => ha, ?_, ?_⟩
    · intro x hx; exact absurd hx (List.not_mem_nil x)
    · intro r _ x hx; exact absurd hx (List.not_mem_nil x)
  | cons rcd rest ih =>
    intro acc hdisj hsame hsorted haccdist
    have hsortedrest : rest.Pairwise updGe := (List.pairwise_cons.mp hsorted).2
    have hheadge : ∀ x ∈ rest, x.updatedAt ≤ rcd.updatedAt :=
      fun x hx => (List.pairwise_cons.mp hsorted).1 x hx
    have hidsym : Symmetric (fun a b : Row => a.id ≠ b.id) :=
      fun a b h => h.symm
    cases hfind : acc.find? (fun e => e.id == rcd.id) with
    | none =>
      have hnone : ∀ e ∈ acc, e.id ≠ rcd.id := by
        intro e he
        have := List.find?_eq_none.mp hfind e he
        simpa using this
      have hstep : collectLatest acc (rcd :: rest) = collectLatest (acc ++ [rcd]) rest :=
        collectLatest_cons_none hfind
      have hmem' : ∀ a : Row, a ∈ acc ++ [rcd] ∨ a ∈ rest → a ∈ acc ∨ a ∈ rcd :: rest := by
        intro a ha
        rcases ha with ha | ha
        · rcases List.mem_append.mp ha with h1 | h1
          · exact Or.inl h1
          · exact Or.inr (by rw [List.mem_singleton.mp h1]; exact List.mem_cons_self rcd rest)
        · exact Or.inr (List.mem_cons_of_mem _ ha)
      have hdisj' : ∀ a ∈ acc ++ [rcd], ∀ x ∈ rest, x.updatedAt ≤ a.updatedAt := by
        intro a ha x hx
        rcases List.mem_append.mp ha with h1 | h1
        · exact hdisj a h1 x (List.mem_cons_of_mem _ hx)
        · rw [List.mem_singleton.mp h1]
          exact hheadge x hx
      have hsame' : ∀ a b, (a ∈ acc ++ [rcd] ∨ a ∈ rest) →
          (b ∈ acc ++ [rcd] ∨ b ∈ rest) → a.id = b.id → a.createdAt = b.createdAt :=
        fun a b ha hb => hsame a b (hmem' a ha) (hmem' b hb)
      have haccdist' : (acc ++ [rcd]).Pairwise (fun a b => a.id ≠ b.id) := by
        rw [List.pairwise_append]
        refine ⟨haccdist, List.pairwise_singleton _ _, ?_⟩
        intro a ha b hb
        rw [List.mem_singleton.mp hb]
        exact hnone a ha
      obtain ⟨ih1, ih2, ih3, ih4, ih5⟩ := ih (acc ++ [rcd]) hdisj' hsame' hsortedrest haccdist'
      rw [hstep]
      have hrcdmem : rcd ∈ collectLatest (acc ++ [rcd]) rest :=
        ih3 rcd (List.mem_append.mpr (Or.inr (List.mem_singleton_self rcd)))
      refine ⟨?_, ih2, ?_, ?_, ?_⟩
      · intro r hr
        exact hmem' r (ih1 r hr)
      · intro a ha
        exact ih3 a (List.mem_append.mpr (Or.inl ha))
      · intro x hx
        rcases List.mem_cons.mp hx with h1 | h1
        · exact ⟨rcd, hrcdmem, by rw [h1]⟩
        · exact ih4 x h1
      · intro r hr x hx hid
        rcases List.mem_cons.mp hx with h1 | h1
        · by_cases hreq : r = rcd
          · rw [h1, hreq]
          · exact absurd (h1 ▸ hid) (ih2.forall hidsym hrcdmem hr (fun hc => hreq hc.symm))
        · exact ih5 r hr x h1 hid
    | some existing =>
      have hexmem : existing ∈ acc := List.mem_of_find?_eq_some hfind
      have hexid : existing.id = rcd.id := by simpa using List.find?_some hfind
      have hcreq : existing.createdAt = rcd.createdAt :=
        hsame existing rcd (Or.inl hexmem) (Or.inr (List.mem_cons_self rcd rest)) hexid
      have hnotlt : ¬ existing.createdAt < rcd.createdAt := by
        rw [hcreq]
        exact Nat.lt_irrefl _
      have hstep : collectLatest acc (rcd :: rest) = collectLatest acc rest := by
        rw [collectLatest_cons_some hfind, if_neg hnotlt]
      have hmem' : ∀ a : Row, a ∈ acc ∨ a ∈ rest → a ∈ acc ∨ a ∈ rcd :: rest := by
        intro a ha
        rcases ha with ha | ha
        · exact Or.inl ha
        · exact Or.inr (List.mem_cons_of_mem _ ha)
      have hdisj' : ∀ a ∈ acc, ∀ x ∈ rest, x.updatedAt ≤ a.updatedAt :=
        fun a ha x hx => hdisj a ha x (List.mem_cons_of_mem _ hx)
      have hsame' : ∀ a b, (a ∈ acc ∨ a ∈ rest) → (b ∈ acc ∨ b ∈ rest) →
          a.id = b.id → a.createdAt = b.createdAt :=
        fun a b ha hb => hsame a b (hmem' a ha) (hmem' b hb)
      obtain ⟨ih1, ih2, ih3, ih4, ih5⟩ := ih acc hdisj' hsame' hsortedrest haccdist
      rw [hstep]
      have hexres : existing ∈ collectLatest acc rest := ih3 existing hexmem
      refine ⟨?_, ih2, ih3, ?_, ?_⟩
      · intro r hr
        exact hmem' r (ih1 r hr)
      · intro x hx
        rcases List.mem_cons.mp hx with h1 | h1
        · exact ⟨existing, hexres, by rw [h1, hexid]⟩
        · exact ih4 x h1
      · intro r hr x hx hid
        rcases List.mem_cons.mp hx with h1 | h1
        · by_cases hreq : r = existing
          · rw [h1, hreq]
            exact hdisj existing hexmem rcd (List.mem_cons_self rcd rest)
          · have hcontra : r.id = existing.id := by rw [← hid, h1, ← hexid]
            exact absurd hcontra (ih2.forall hidsym hr hexres hreq)
        · exact ih5 r hr x h1 hid

/-- C1: `update` on an entity with an active current version appends exactly
one new physical row that reuses the logical id, keeps the original
`createdAt`, stamps `updatedAt = now` and `deletedAt = null`, takes the
caller's `name` when supplied (not the falsy empty string), and carries the
shallow merge of the prior data with the caller's data; every prior row,
the prior version included, is left unmodified (the new store is the old
store plus the one new row). -/
theorem update_appends_merged_version (store : Store) (ws : Int) (eid : String)
    (upd : UpdateData) (now : Nat) (rid : String) (prior : Row)
    (hres : getLatestRecordById store ws eid = some prior)
    (hname : upd.name ≠ some "")
    (hdata : ((upd.data.getD []).map Prod.fst).Nodup) :
    UpdateAppendSpec store ws eid upd now rid prior := by
  have hstep : crudUpdate store ws eid upd now rid =
      (Except.ok (updatedRow prior upd now rid), store ++ [updatedRow prior upd now rid]) := by
    unfold crudUpdate
    rw [hres]
  refine ⟨updatedRow prior upd now rid, hstep, rfl, rfl, rfl, rfl, rfl, rfl, ?_, ?_⟩
  · show (match upd.name with
      | some nm => if nm = "" then prior.name else nm
      | none => prior.name) = _
    cases hn : upd.name with
    | none => rfl
    | some nm =>
      have : nm ≠ "" := by
        intro hc
        rw [hc] at hn
        exact hname hn
      simp [this]
  · intro k
    show objGet (match upd.data with
      | some d => objMerge prior.data d
      | none => prior.data) k = _
    cases hd : upd.data with
    | none => rfl
    | some d =>
      rw [hd] at hdata
      exact objGet_objMerge prior.data d hdata k

/-- C2: on every store the engine can produce, `getAll` returns exactly one
record per logical id present among the workspace's non-deleted rows,
namely a row with the greatest `updatedAt` for that id; deleted rows and
rows of other workspaces never appear. -/
theorem getAll_latest_active_per_id (store : Store) (hreach : Reachable store)
    (ws : Int) : GetAllSpec store ws := by
  have hinv := reachable_createdAtConstant hreach
  have hgd : crudGetAll store ws = collectLatest [] (getLatestRecords store ws) := rfl
  have hsorted : (getLatestRecords store ws).Pairwise updGe :=
    sorted_getLatestRecordsWith store ws _
  have hmeml : ∀ x : Row, x ∈ getLatestRecords store ws ↔
      x ∈ store ∧ x.workspaceId = ws ∧ x.deletedAt = none := by
    intro x
    unfold getLatestRecords
    rw [mem_getLatestRecordsWith]
    simp
  have hsame : ∀ a b : Row,
      (a ∈ ([] : List Row) ∨ a ∈ getLatestRecords store ws) →
      (b ∈ ([] : List Row) ∨ b ∈ getLatestRecords store ws) →
      a.id = b.id → a.createdAt = b.createdAt := by
    intro a b ha hb hid
    rcases ha with h | ha
    · exact absurd h (List.not_mem_nil a)
    rcases hb with h | hb
    · exact absurd h (List.not_mem_nil b)
    obtain ⟨hams, haws, _⟩ := (hmeml a).mp ha
    obtain ⟨hbms, hbws, _⟩ := (hmeml b).mp hb
    exact hinv a hams b hbms (by rw [haws, hbws]) hid
  obtain ⟨h1, h2, h3, h4, h5⟩ := collectLatest_spec (getLatestRecords store ws) []
    (fun a ha => absurd ha (List.not_mem_nil a)) hsame hsorted List.Pairwise.nil
  refine ⟨?_, ?_, ?_, ?_⟩
  · intro r hr
    rw [hgd] at hr
    rcases h1 r hr with h | h
    · exact absurd h (List.not_mem_nil r)
    · exact (hmeml r).mp h
  · rw [hgd]
    exact h2
  · intro x hx hws hdel
    rw [hgd]
    exact h4 x ((hmeml x).mpr ⟨hx, hws, hdel⟩)
  · intro r hr x hx hws hdel hid
    rw [hgd] at hr
    exact h5 r hr x ((hmeml x).mpr ⟨hx, hws, hdel⟩) hid

theorem delete_marks_only_current (store : Store) (ws : Int) (eid : String)
    (now : Nat) : DeleteSpec store ws eid now := by
  unfold DeleteSpec
  cases hres : getLatestRecordById store ws eid with
  | none =>
    unfold crudDelete
    rw [hres]
  | some cur =>
    obtain ⟨hmem, hws, hdel, hid⟩ := getLatestRecordById_props hres
    have hstep : crudDelete store ws eid now =
        (store.any (fun r => r.rowId == cur.rowId && r.deletedAt.isNone),
         store.map (fun r =>
           if r.rowId == cur.rowId && r.deletedAt.isNone then
             { r with deletedAt := some now, updatedAt := now }
           else r)) := by
      unfold crudDelete
      rw [hres]
    rw [hstep]
    refine ⟨?_, ?_, ?_, ?_⟩
    · exact List.any_eq_true.mpr ⟨cur, hmem, by simp [hdel]⟩
    · rw [List.map_map]
      apply List.map_congr_left
      intro r _
      simp only [Function.comp]
      split
      · rfl
      · rfl
    · exact List.mem_map.mpr ⟨cur, hmem, by simp [hdel]⟩
    · intro r hr hne
      refine List.mem_map.mpr ⟨r, hr, ?_⟩
      have : (r.rowId == cur.rowId) = false := beq_eq_false_iff_ne.mpr hne
      simp [this]

/-- C8: every query and resolution of the append-only engine is partitioned
by `workspaceId`: reads with a workspace id only return rows of that
workspace, and update and delete invoked with a workspace id never affect
rows of any other workspace. -/
theorem workspace_partitioning (store : Store) (hreach : Reachable store)
    (ws : Int) (eid : String) (upd : UpdateData) (now : Nat) (rid : String) :
    WorkspaceIsolation store ws eid upd now rid := by
  refine ⟨?_, ?_, ?_, ?_, ?_⟩
  · intro r hr
    exact (getLatestRecordById_props hr).2.1
  · intro r hr
    rcases collectLatest_mem _ [] r hr with h | h
    · exact absurd h (List.not_mem_nil r)
    · exact ((mem_getLatestRecordsWith).mp h).2.1
  · intro r hr
    unfold crudUpdate
    cases hres : getLatestRecordById store ws eid with
    | none => exact hr
    | some latest => exact List.mem_append.mpr (Or.inl hr)
  · intro n hn
    unfold crudUpdate at hn
    cases hres : getLatestRecordById store ws eid with
    | none =>
      rw [hres] at hn
      exact absurd hn (by simp)
    | some latest =>
      rw [hres] at hn
      have : updatedRow latest upd now rid = n := by
        simpa using hn
      rw [← this]
      exact (getLatestRecordById_props hres).2.1
  · intro r hr hws
    unfold crudDelete
    cases hres : getLatestRecordById store ws eid with
    | none => exact hr
    | some cur =>
      refine List.mem_map.mpr ⟨r, hr, ?_⟩
      have hne : r ≠ cur := by
        intro hc
        rw [hc] at hws
        exact hws (getLatestRecordById_props hres).2.1
      have hrid : r.rowId ≠ cur.rowId := by
        intro hc
        exact hne (List.inj_on_of_nodup_map (reachable_rowIdsUnique hreach)
          hr (getLatestRecordById_props hres).1 hc)
      have : (r.rowId == cur.rowId) = false := beq_eq_false_iff_ne.mpr hrid
      simp [this]

/-- C10: a caller-supplied falsy `name` (the empty string) is ignored in
favour of the prior version's name, and a falsy `data` leaves the prior
version's data document unchanged rather than being merged. -/
theorem update_ignores_falsy_fields (store : Store) (ws : Int) (eid : String)
    (now : Nat) (rid : String) (prior : Row)
    (hres : getLatestRecordById store ws eid = some prior) :
    FalsyUpdateSpec store ws eid now rid prior := by
  have hstep : crudUpdate store ws eid { name := some "", data := none } now rid =
      (Except.ok (updatedRow prior { name := some "", data := none } now rid),
       store ++ [updatedRow prior { name := some "", data := none } now rid]) := by
    unfold crudUpdate
    rw [hres]
  exact ⟨updatedRow prior { name := some "", data := none } now rid, hstep,
    by simp [updatedRow], by simp [updatedRow]⟩

theorem demoStore1_reachable : Reachable demoStore1 :=
  Reachable.create [] 1 "e1" "r1" "A" (some [("x", Value.num 1)]) 0
    Reachable.empty (by simp) (by simp)

theorem demoStore2_reachable : Reachable demoStore2 :=
  Reachable.update demoStore1 1 "e1" demoUpd 1 "r2"
    demoStore1_reachable (by decide)

theorem update_appends_merged_version_witness :
    UpdateAppendSpec demoStore1 1 "e1" demoUpd 1 "r2" demoRow1 :=
  update_appends_merged_version demoStore1 1 "e1" demoUpd 1 "r2" demoRow1
    (by decide) (by decide) (by decide)

theorem getAll_latest_active_per_id_witness : GetAllSpec demoStore2 1 :=
  getAll_latest_active_per_id demoStore2 demoStore2_reachable 1

theorem workspace_partitioning_witness :
    WorkspaceIsolation demoStore2 2 "e1" demoUpdEmpty 5 "r9" :=
  workspace_partitioning demoStore2 demoStore2_reachable 2 "e1" demoUpdEmpty 5 "r9"

theorem update_ignores_falsy_fields_witness :
    FalsyUpdateSpec demoStore1 1 "e1" 3 "r7" demoRow1 :=
  update_ignores_falsy_fields demoStore1 1 "e1" 3 "r7" demoRow1 (by decide)

/-- C7 counterexample: after a create and an append-only update, the first
delete marks the newest version, but a second delete resolves the older
still-active version, marks it as a second deleted row and returns true,
not false. -/
theorem delete_second_call_succeeds :
    (crudDelete (crudDelete demoStore2 1 "e1" 2).2 1 "e1" 3).1 = true ∧
    ((crudDelete (crudDelete demoStore2 1 "e1" 2).2 1 "e1" 3).2.countP
      (fun r => r.deletedAt.isSome)) = 2 := by decide

theorem strEndsWith_iff (k s : String) :
    strEndsWith k s = true ↔ s.data <:+ k.data := by
  unfold strEndsWith
  constructor
  · intro h
    have hd : k.data.drop (k.data.length - s.data.length) = s.data := by
      simpa using h
    rw [← hd]
    exact List.drop_suffix _ _
  · rintro ⟨u, hu⟩
    have hlen : k.data.length = u.length + s.data.length := by
      rw [← hu, List.length_append]
    have hsub : k.data.length - s.data.length = u.length := by omega
    rw [hsub, ← hu, List.drop_left]
    simp

theorem strEndsWith_append_self (f s : String) : strEndsWith (f ++ s) s = true := by
  rw [strEndsWith_iff, String.data_append]
  exact List.suffix_append _ _

theorem strEndsWith_append_ne (f s t : String)
    (h1 : strEndsWith s t = false) (h2 : strEndsWith t s = false) :
    strEndsWith (f ++ s) t = false := by
  by_contra h
  rw [Bool.not_eq_false] at h
  have ht : t.data <:+ (f ++ s).data := (strEndsWith_iff _ _).mp h
  have hs : s.data <:+ (f ++ s).data := by
    rw [String.data_append]
    exact List.suffix_append _ _
  rcases List.suffix_or_suffix_of_suffix ht hs with hc | hc
  · rw [(strEndsWith_iff s t).mpr hc] at h1
    exact Bool.true_eq_false.mp h1
  · rw [(strEndsWith_iff t s).mpr hc] at h2
    exact Bool.true_eq_false.mp h2

theorem strDropRight_append (f s : String) :
    strDropRight (f ++ s) s.data.length = f := by
  unfold strDropRight
  have h1 : (f ++ s).data = f.data ++ s.data := String.data_append f s
  have h2 : (f ++ s).data.length - s.data.length = f.data.length := by
    rw [h1, List.length_append]
    omega
  rw [h2, h1, List.take_left]

theorem matchSuffix_eq_none (tbl : List (String × FOp × Nat)) (key : String)
    (h : ∀ t ∈ tbl, strEndsWith key t.1 = false) :
    matchSuffix tbl key = none := by
  induction tbl with
  | nil => rfl
  | cons t rest ih =>
    obtain ⟨sfx, op, len⟩ := t
    have hhead := h ⟨sfx, op, len⟩ (List.mem_cons_self _ _)
    simp only [matchSuffix, hhead, Bool.false_eq_true, if_false]
    exact ih (fun q hq => h q (List.mem_cons_of_mem _ hq))

theorem strEndsWith_self (s : String) : strEndsWith s s = true := by
  rw [strEndsWith_iff]

theorem matchSuffix_append_gen (fld sfx : String) (op : FOp) :
    ∀ tbl : List (String × FOp × Nat),
    (∀ t ∈ tbl, (t.1 = sfx ∧ t.2.1 = op ∧ t.2.2 = sfx.data.length) ∨
       (strEndsWith sfx t.1 = false ∧ strEndsWith t.1 sfx = false)) →
    (∃ t ∈ tbl, t.1 = sfx) →
    matchSuffix tbl (fld ++ sfx) = some (fld, op) := by
  intro tbl
  induction tbl with
  | nil =>
    intro _ hex
    obtain ⟨t, ht, _⟩ := hex
    exact absurd ht (List.not_mem_nil t)
  | cons t rest ih =>
    intro hprop hex
    obtain ⟨sfx', op', len'⟩ := t
    have hstep : matchSuffix ((sfx', op', len') :: rest) (fld ++ sfx) =
        if strEndsWith (fld ++ sfx) sfx' then
          some (strDropRight (fld ++ sfx) len', op')
        else matchSuffix rest (fld ++ sfx) := rfl
    rcases hprop _ (List.mem_cons_self _ _) with ⟨h1, h2, h3⟩ | ⟨h1, h2⟩
    · simp only at h1 h2 h3
      subst h1
      subst h2
      subst h3
      rw [hstep, strEndsWith_append_self, if_pos rfl, strDropRight_append]
    · simp only at h1 h2
      have hfail : strEndsWith (fld ++ sfx) sfx' = false :=
        strEndsWith_append_ne fld sfx sfx' h1 h2
      rw [hstep, hfail]
      simp only [Bool.false_eq_true, if_false]
      refine ih (fun q hq => hprop q (List.mem_cons_of_mem _ hq)) ?_
      obtain ⟨t0, ht0, heq0⟩ := hex
      rcases List.mem_cons.mp ht0 with h0 | h0
      · rw [h0] at heq0
        simp only at heq0
        rw [heq0] at h1
        rw [strEndsWith_self sfx] at h1
        exact absurd h1 (by simp)
      · exact ⟨t0, h0, heq0⟩

theorem serializeKey_ne_eq (fld : String) (v : Value) (op : FOp) (sfx : String)
    (hop : op ≠ FOp.eqOp) (hsfx : "_" ++ opName op = sfx) :
    serializeKey ⟨fld, op, v⟩ = fld ++ sfx := by
  show (if op = FOp.eqOp then fld else fld ++ "_" ++ opName op) = fld ++ sfx
  rw [if_neg hop, String.append_assoc, hsfx]

theorem parse_serialize_nonEq (fld : String) (v : Value) (op : FOp) (sfx : String)
    (hop : op ≠ FOp.eqOp)
    (hsfx : "_" ++ opName op = sfx)
    (hprop : ∀ t ∈ operatorMappings,
       (t.1 = sfx ∧ t.2.1 = op ∧ t.2.2 = sfx.data.length) ∨
       (strEndsWith sfx t.1 = false ∧ strEndsWith t.1 sfx = false))
    (hex : ∃ t ∈ operatorMappings, t.1 = sfx) :
    parseFieldAndOperator (serializeKey ⟨fld, op, v⟩) = (fld, op) := by
  rw [serializeKey_ne_eq fld v op sfx hop hsfx]
  unfold parseFieldAndOperator
  rw [matchSuffix_append_gen fld sfx op operatorMappings hprop hex]

/-- Round trip of one predicate at the key level: a non-equality predicate
always parses back to its own field and operator; an equality predicate
does when its field does not itself end in an operator suffix. -/
theorem parseFieldAndOperator_serializeKey (f : FilterPred)
    (hf : f.operator = FOp.eqOp → fieldEndsInOpSuffix f.field = false) :
    parseFieldAndOperator (serializeKey f) = (f.field, f.operator) := by
  obtain ⟨fld, op, v⟩ := f
  cases op with
  | eqOp =>
    have hres : fieldEndsInOpSuffix fld = false := hf rfl
    have hall : ∀ t ∈ operatorMappings, strEndsWith fld t.1 = false := by
      intro t ht
      have := List.any_eq_false.mp hres t ht
      simpa using this
    have hkey : serializeKey ⟨fld, FOp.eqOp, v⟩ = fld := by
      show (if FOp.eqOp = FOp.eqOp then fld else _) = fld
      rw [if_pos rfl]
    rw [hkey]
    unfold parseFieldAndOperator
    rw [matchSuffix_eq_none _ _ hall]
  | neOp => exact parse_serialize_nonEq fld v FOp.neOp "_ne" (by decide) (by decide) (by decide) (by decide)
  | ltOp => exact parse_serialize_nonEq fld v FOp.ltOp "_lt" (by decide) (by decide) (by decide) (by decide)
  | gtOp => exact parse_serialize_nonEq fld v FOp.gtOp "_gt" (by decide) (by decide) (by decide) (by decide)
  | lteOp => exact parse_serialize_nonEq fld v FOp.lteOp "_lte" (by decide) (by decide) (by decide) (by decide)
  | gteOp => exact parse_serialize_nonEq fld v FOp.gteOp "_gte" (by decide) (by decide) (by decide) (by decide)
  | inOp => exact parse_serialize_nonEq fld v FOp.inOp "_in" (by decide) (by decide) (by decide) (by decide)
  | pfxOp => exact parse_serialize_nonEq fld v FOp.pfxOp "_prefix" (by decide) (by decide) (by decide) (by decide)
  | sfxOp => exact parse_serialize_nonEq fld v FOp.sfxOp "_suffix" (by decide) (by decide) (by decide) (by decide)
  | substrOp => exact parse_serialize_nonEq fld v FOp.substrOp "_substr" (by decide) (by decide) (by decide) (by decide)

theorem objSet_eq_append (o : List (String × Value)) (k : String) (v : Value)
    (h : ∀ p ∈ o, p.1 ≠ k) : objSet o k v = o ++ [(k, v)] := by
  unfold objSet
  have hany : o.any (fun p => p.1 == k) = false := by
    rw [List.any_eq_false]
    intro p hp
    simpa using h p hp
  simp [hany]

theorem toQueryParams_foldl (P : List FilterPred) :
    ∀ acc : List (String × Value),
    (∀ f ∈ P, ∀ p ∈ acc, serializeKey f ≠ p.1) →
    P.Pairwise (fun f g => serializeKey f ≠ serializeKey g) →
    P.foldl (fun acc f => objSet acc (serializeKey f) f.value) acc
      = acc ++ P.map (fun f => (serializeKey f, f.value)) := by
  induction P with
  | nil => intro acc _ _; simp
  | cons f rest ih =>
    intro acc hdisj hdist
    have hset : objSet acc (serializeKey f) f.value = acc ++ [(serializeKey f, f.value)] := by
      apply objSet_eq_append
      intro p hp
      exact fun hc => hdisj f (List.mem_cons_self f rest) p hp hc.symm
    have hdisj' : ∀ g ∈ rest, ∀ p ∈ acc ++ [(serializeKey f, f.value)],
        serializeKey g ≠ p.1 := by
      intro g hg p hp
      rcases List.mem_append.mp hp with h1 | h1
      · exact hdisj g (List.mem_cons_of_mem _ hg) p h1
      · rw [List.mem_singleton.mp h1]
        intro hc
        exact (List.pairwise_cons.mp hdist).1 g hg hc.symm
    have hdist' : rest.Pairwise (fun f g => serializeKey f ≠ serializeKey g) :=
      (List.pairwise_cons.mp hdist).2
    have hfold : (f :: rest).foldl (fun acc f => objSet acc (serializeKey f) f.value) acc
        = rest.foldl (fun acc f => objSet acc (serializeKey f) f.value)
            (objSet acc (serializeKey f) f.value) := rfl
    rw [hfold, hset, ih (acc ++ [(serializeKey f, f.value)]) hdisj' hdist']
    simp

/-- C3 counterexample: a single equality predicate on a field that itself
ends in the `_gt` operator suffix does not survive the round trip: it comes
back as a greater-than predicate on the truncated field, so the compiled
list is not equivalent to the original as a set of triples. -/
theorem filter_roundtrip_counterexample :
    fromQueryParams (toQueryParams [⟨"age_gt", FOp.eqOp, Value.num 30⟩])
      = [⟨"age", FOp.gtOp, Value.num 30⟩] ∧
    (FilterPred.mk "age_gt" FOp.eqOp (Value.num 30)) ∉
      fromQueryParams (toQueryParams [⟨"age_gt", FOp.eqOp, Value.num 30⟩]) := by
  decide

/-- C3: compiling the serialization of a predicate list reproduces the list
exactly, provided no two predicates serialize to the same parameter key, no
serialized key collides with a reserved control key, and no equality
predicate's field itself ends in an operator suffix. Without the last
proviso the round trip fails, as the counterexample shows. -/
theorem filter_roundtrip_amended (P : List FilterPred)
    (hdist : P.Pairwise (fun f g => serializeKey f ≠ serializeKey g))
    (hres : ∀ f ∈ P, reservedQueryParams.contains (serializeKey f) = false)
    (heq : ∀ f ∈ P, f.operator = FOp.eqOp → fieldEndsInOpSuffix f.field = false) :
    fromQueryParams (toQueryParams P) = P := by
  have htq : toQueryParams P = P.map (fun f => (serializeKey f, f.value)) := by
    unfold toQueryParams
    rw [toQueryParams_foldl P [] (fun f _ p hp => absurd hp (List.not_mem_nil p)) hdist]
    simp
  rw [htq]
  unfold fromQueryParams
  have hfilter : (P.map (fun f => (serializeKey f, f.value))).filter
      (fun p => !(reservedQueryParams.contains p.1))
      = P.map (fun f => (serializeKey f, f.value)) := by
    rw [List.filter_eq_self]
    intro p hp
    obtain ⟨f, hf, hfp⟩ := List.mem_map.mp hp
    rw [← hfp]
    simp only [Bool.not_eq_eq_eq_not, Bool.not_true]
    exact hres f hf
  rw [hfilter, List.map_map]
  have hpt : ∀ f ∈ P,
      ((fun p : String × Value =>
          ({ field := (parseFieldAndOperator p.1).1,
             operator := (parseFieldAndOperator p.1).2,
             value := p.2 } : FilterPred)) ∘
        (fun f => (serializeKey f, f.value))) f = f := by
    intro f hf
    simp only [Function.comp]
    rw [parseFieldAndOperator_serializeKey f (heq f hf)]
  rw [List.map_congr_left hpt]
  simp

theorem filter_roundtrip_amended_witness :
    fromQueryParams (toQueryParams demoFilters) = demoFilters :=
  filter_roundtrip_amended demoFilters (by decide) (by decide) (by decide)

/-- C4 counterexample: when the backend count call fails, `count` rethrows
the failure instead of returning a zero count. -/
theorem count_error_propagates :
    geCount (Except.error ()) = Except.error () ∧
    geCount (Except.error ()) ≠ Except.ok 0 := by decide

/-- C4: on backend failure `findMany` degrades gracefully to an empty
result set with a zero count, while `count` propagates the failure to the
caller; the graceful degradation covers the list path only. -/
theorem read_paths_error_asymmetry (page limit : Option Int) (e : Unit) :
    geFindMany page limit (fun _ _ => Except.error ()) =
      { records := [], record_count := 0 } ∧
    geCount (Except.error e) = Except.error e :=
  ⟨rfl, rfl⟩

/-- C5 counterexample: a caller-supplied limit of zero is falsy in
JavaScript, so the default of 10 is used instead of the claimed clamp to
the range floor of 1. -/
theorem limit_zero_not_clamped :
    effectiveLimit (some 0) = 10 ∧
    min 100 (max 1 (0 : Int)) = 1 ∧
    effectiveLimit (some 0) ≠ min 100 (max 1 (0 : Int)) := by decide

/-- C5: for every nonzero supplied limit the effective limit is
`clamp(L, 1, 100)`; an absent or zero limit falls back to the default 10;
the effective page is `max(1, Pg)` for every supplied page and 1 when
absent; the offset is `(page - 1) * limit` over the effective values. -/
theorem pagination_clamps_amended (L Pg : Int) (hL : L ≠ 0) :
    effectiveLimit (some L) = min 100 (max 1 L) ∧
    effectiveLimit none = 10 ∧
    effectiveLimit (some 0) = 10 ∧
    effectivePage (some Pg) = max 1 Pg ∧
    effectivePage none = 1 ∧
    effectiveOffset (some Pg) (some L) =
      (effectivePage (some Pg) - 1) * effectiveLimit (some L) := by
  refine ⟨?_, rfl, rfl, ?_, rfl, rfl⟩
  · show min 100 (max 1 (if L = 0 then (10 : Int) else L)) = min 100 (max 1 L)
    rw [if_neg hL]
  · show max 1 (if Pg = 0 then (1 : Int) else Pg) = max 1 Pg
    by_cases h : Pg = 0
    · rw [if_pos h, h]
      decide
    · rw [if_neg h]

theorem pagination_clamps_amended_witness :
    effectiveLimit (some 5) = min 100 (max 1 5) ∧
    effectiveLimit none = 10 ∧
    effectiveLimit (some 0) = 10 ∧
    effectivePage (some (-3)) = max 1 (-3) ∧
    effectivePage none = 1 ∧
    effectiveOffset (some (-3)) (some 5) =
      (effectivePage (some (-3)) - 1) * effectiveLimit (some 5) :=
  pagination_clamps_amended 5 (-3) (by decide)

/-- C9: the generic engine's delete catches any backend error and reports
false, exactly the result of deleting a record that does not exist, while
create, update and bulkCreate rethrow the backend error to the caller. -/
theorem delete_swallows_backend_errors (store : List GRow) (id : String)
    (now : Nat) (nm : String) (dat : List (String × Value)) (rid : String)
    (patch : GPatch) (items : List (String × List (String × Value)))
    (gen : Nat → String)
    (hempty : store.all (fun r => !(r.id == id && r.deleted_at.isNone)) = true) :
    geDelete store id now (some ()) = (false, store) ∧
    geDelete store id now none = (false, store) ∧
    geCreate store nm dat now rid (some ()) = Except.error () ∧
    geUpdate store id patch now rid (some ()) = Except.error () ∧
    geBulkCreate store items now gen (some ()) = Except.error () := by
  refine ⟨rfl, ?_, rfl, rfl, rfl⟩
  unfold geDelete
  have hcond : ∀ r ∈ store, (r.id == id && r.deleted_at.isNone) = false := by
    intro r hr
    have hb := List.all_eq_true.mp hempty r hr
    cases hcase : (r.id == id && r.deleted_at.isNone) with
    | false => rfl
    | true =>
      rw [hcase] at hb
      exact absurd hb (by decide)
  have hany : store.any (fun r => r.id == id && r.deleted_at.isNone) = false := by
    rw [List.any_eq_false]
    intro r hr
    rw [hcond r hr]
    simp
  have hpt : ∀ r ∈ store,
      (if r.id == id && r.deleted_at.isNone then { r with deleted_at := some now }
       else r) = r := by
    intro r hr
    rw [hcond r hr]
    simp
  rw [hany, List.map_congr_left hpt]
  simp

theorem delete_swallows_backend_errors_witness :
    geDelete [] "x" 0 (some ()) = (false, []) ∧
    geDelete [] "x" 0 none = (false, []) ∧
    geCreate [] "nm" [] 0 "r1" (some ()) = Except.error () ∧
    geUpdate [] "x" { name := none, data := none } 0 "r1" (some ()) = Except.error () ∧
    geBulkCreate [] [] 0 (fun _ => "g") (some ()) = Except.error () :=
  delete_swallows_backend_errors [] "x" 0 "nm" [] "r1"
    { name := none, data := none } [] (fun _ => "g") (by decide)

/-- C6 counterexample: in the versioning engine, an update whose entity
resolves to no active row throws an entity-not-found error; the operation
does not surface a null result. -/
theorem update_missing_entity_throws :
    crudUpdate [] 1 "missing" demoUpdEmpty 0 "r9"
      = (Except.error CrudError.noActiveRecord, []) := by decide

/-- C6: an update targeting a logical id with no active row fails as
entity-not-found and writes no row, leaving the store unchanged; the
generic engine surfaces this as a null result, while the versioning
engine throws the error instead. -/
theorem update_not_found_fails_no_write (store : Store) (ws : Int) (eid : String)
    (upd : UpdateData) (now : Nat) (rid : String)
    (gstore : List GRow) (gid : String) (patch : GPatch) (gnow : Nat) (grid : String)
    (h1 : getLatestRecordById store ws eid = none)
    (h2 : (gstore.filter (fun r => r.id == gid && r.deleted_at.isNone)).head? = none) :
    crudUpdate store ws eid upd now rid = (Except.error CrudError.noActiveRecord, store) ∧
    geUpdate gstore gid patch gnow grid none = Except.ok (none, gstore) := by
  constructor
  · unfold crudUpdate
    rw [h1]
  · unfold geUpdate
    rw [h2]

theorem update_not_found_fails_no_write_witness :
    crudUpdate [] 2 "nope" demoUpdEmpty 7 "r8"
      = (Except.error CrudError.noActiveRecord, []) ∧
    geUpdate [] "nope" { name := none, data := none } 7 "r8" none
      = Except.ok (none, []) :=
  update_not_found_fails_no_write [] 2 "nope" demoUpdEmpty 7 "r8"
    [] "nope" { name := none, data := none } 7 "r8" (by decide) (by decide)
